import Mathlib

/-!
# Verification of the `readfeed` content-windowing core

A shallow embedding of the `readfeed` crate's shared parsing pattern: the
content-window extractor (`src/xml.rs`, `read_until_end_tag`), the generic
lazy hierarchical iterator (the `impl_iter` macro shared by `atom.rs`,
`rss.rs`, `opml.rs`), the per-level element dispatchers, the document type
sniffer (`detect_type` / `find_ty`), and lazy attribute lookup
(`Tag::find_attribute`).

The low-level tokenizer (the external `maybe_xml` crate) is out of scope and
is modelled through its interface: an input is represented by the list of
lexical tokens the Token Source produces for it, each token carrying its
kind, its (namespace-prefixed) name, its attribute list, and its exact text
span.  Positions are token indices; `byteOff` translates an index to the
byte offset of that token's start (the sum of the spans before it), which is
exactly the `pos` byte cursor of the Rust code.  A container element's child
iterator, which the Rust code builds by re-tokenizing the content slice
(`Reader::from_str(content)`), is modelled by the window's token sub-list;
this uses the Token Source interface assumption that tokenizing a
concatenation of complete tokens yields those tokens back.
-/

namespace Readfeed

/-- Kinds of lexical tokens reported by the Token Source
(`maybe_xml::token::Ty`). -/
inductive TokenKind
  | startTag
  | endTag
  | emptyElementTag
  | characters
  | processingInstruction
  | declaration
  | comment
  | cdata
deriving DecidableEq, Repr

/-- One attribute of a tag: its name and its optional value
(`maybe_xml` attributes may lack a `="value"` part). -/
structure Attr where
  name : String
  value : Option String
deriving DecidableEq, Repr

/-- A lexical token.  `text` is the token's exact span in the input;
`nsPref`/`localName` model `TagName::namespace_prefix`/`TagName::local`
(meaningful for tag kinds); `attrs` models the tag's attribute list;
`content` models `content()` of character-data and CDATA tokens (for
character data it coincides with the full span `text`). -/
structure Token where
  kind : TokenKind
  nsPref : Option String := none
  localName : String := ""
  attrs : List Attr := []
  text : String
  content : String := ""
deriving DecidableEq, Repr

/-- `TagName::as_str()`: the full name, `prefix:local` or just the local
name. -/
def Token.fullName (t : Token) : String :=
  match t.nsPref with
  | some p => p ++ ":" ++ t.localName
  | none => t.localName

/-- Rust `char::to_ascii_lowercase`. -/
def asciiLowerChar (c : Char) : Char :=
  if 'A' ≤ c ∧ c ≤ 'Z' then Char.ofNat (c.toNat + 32) else c

/-- ASCII-lowercase every character of a string. -/
def asciiLower (s : String) : String := String.mk (s.data.map asciiLowerChar)

/-- Rust `str::eq_ignore_ascii_case`: equality after ASCII lowercasing. -/
def eqIgnoreAsciiCase (a b : String) : Bool := asciiLower a == asciiLower b

/-- The Unicode `White_Space` code points, the set recognized by Rust's
`char::is_whitespace` (used by `str::trim` and by `detect_type`). -/
def isRustWhitespace (c : Char) : Bool :=
  ([' ', '\t', '\n', '\x0b', '\x0c', '\r', '\u0085', ' ', ' ',
    ' ', ' ', ' ', ' ', ' ', ' ', ' ',
    ' ', ' ', ' ', ' ', ' ', ' ', ' ',
    ' ', '　'] : List Char).contains c

/-- Rust `char::is_ascii_whitespace`: space, tab, newline, form feed,
carriage return. -/
def isAsciiWhitespace (c : Char) : Bool :=
  ([' ', '\t', '\n', '\x0c', '\r'] : List Char).contains c

/-- Rust `s.trim().is_empty()`: every character is whitespace. -/
def trimIsEmpty (s : String) : Bool := s.toList.all isRustWhitespace

/-- The byte length of a token's span. -/
def tokLen (t : Token) : Nat := t.text.utf8ByteSize

/-- Byte offset of the start of token `i`: the sum of the spans before it.
This is the value of the Rust byte cursor `pos` when it sits on token `i`. -/
def byteOff (ts : List Token) (i : Nat) : Nat :=
  ((ts.take i).map tokLen).sum

/-- Concatenation of the spans of a list of tokens. -/
def textOf (ts : List Token) : String :=
  ts.foldr (fun t acc => t.text ++ acc) ""

/-- The token sub-list of the index range `[b, e)`: the content window as a
token list (`&input[begin..end]` at token granularity). -/
def seg (ts : List Token) (b e : Nat) : List Token :=
  (ts.drop b).take (e - b)

/-!
## Content Window Extractor — `xml::read_until_end_tag`

The loop body of `read_until_end_tag` (src/readfeed/src/xml.rs:55-91),
translated over the remaining token list.  `pos` is the cursor (a token
index here), `endAcc` mirrors the local `end` (updated to the cursor after
every token that does not break the loop), `count` mirrors `start_count`
(an `i32` in the source; it starts at 1, is only decremented when positive
and the loop stops when it reaches 0, so `Nat` is exact).
-/

/-- Loop of `read_until_end_tag`: scan the remaining tokens, counting
same-named (full name, ASCII-case-insensitive) start tags up and end tags
down; stop after the end tag that brings the count to zero. Returns
`(end, pos)`. -/
def readUntilEndTagAux (tagName : String) :
    List Token → Nat → Nat → Nat → Nat × Nat
  | [], pos, endAcc, _count => (endAcc, pos)
  | t :: rest, pos, endAcc, count =>
    match t.kind with
    | .endTag =>
      if eqIgnoreAsciiCase t.fullName tagName then
        if count = 1 then (endAcc, pos + 1)
        else readUntilEndTagAux tagName rest (pos + 1) (pos + 1) (count - 1)
      else readUntilEndTagAux tagName rest (pos + 1) (pos + 1) count
    | .startTag =>
      if eqIgnoreAsciiCase t.fullName tagName then
        readUntilEndTagAux tagName rest (pos + 1) (pos + 1) (count + 1)
      else readUntilEndTagAux tagName rest (pos + 1) (pos + 1) count
    | _ => readUntilEndTagAux tagName rest (pos + 1) (pos + 1) count

/-- `xml::read_until_end_tag`: given the full name of the tag just opened
and the cursor just after it, return `(end, pos)` where `end` is the
content's end (the start of the matching end tag, or the end of the last
read token on truncation) and `pos` is the final cursor. -/
def read_until_end_tag (tagName : String) (tokens : List Token) (pos : Nat) :
    Nat × Nat :=
  readUntilEndTagAux tagName (tokens.drop pos) pos pos 1

/-- Declarative matching-end-tag search, written from the specification's
wording: a depth counter starts at `depth`, is incremented on same-named
start tags, decremented on same-named end tags, and the match is the end
tag at which it reaches zero.  Returns the relative index of that end tag,
or `none` if the stream ends first. -/
def matchingEndTag (tagName : String) (depth : Nat) :
    List Token → Option Nat
  | [] => none
  | t :: rest =>
    if t.kind = .endTag ∧ eqIgnoreAsciiCase t.fullName tagName then
      if depth = 1 then some 0
      else (matchingEndTag tagName (depth - 1) rest).map Nat.succ
    else if t.kind = .startTag ∧ eqIgnoreAsciiCase t.fullName tagName then
      (matchingEndTag tagName (depth + 1) rest).map Nat.succ
    else
      (matchingEndTag tagName depth rest).map Nat.succ

/-- The extractor loop agrees with the declarative depth-counting search:
if a matching end tag exists at relative index `k`, the loop returns
`(pos + k, pos + k + 1)` (content ends at the matching end tag's start,
cursor just after it); otherwise it returns the end of input for both. -/
theorem readUntilEndTagAux_eq_matching (tagName : String) :
    ∀ (rem : List Token) (pos count : Nat), 1 ≤ count →
    readUntilEndTagAux tagName rem pos pos count =
      (match matchingEndTag tagName count rem with
      | some k => (pos + k, pos + k + 1)
      | none => (pos + rem.length, pos + rem.length)) := by
  intro rem
  induction rem with
  | nil => intro pos count _; simp [readUntilEndTagAux, matchingEndTag]
  | cons t rest ih =>
    intro pos count hc
    match hk : t.kind with
    | .endTag =>
      by_cases hn : eqIgnoreAsciiCase t.fullName tagName
      · by_cases h1 : count = 1
        · subst h1
          simp [readUntilEndTagAux, matchingEndTag, hk, hn]
        · have h2 : 1 ≤ count - 1 := by omega
          have := ih (pos + 1) (count - 1) h2
          simp only [readUntilEndTagAux, matchingEndTag, hk, hn, if_pos,
            if_neg h1, and_self, if_true, this]
          cases matchingEndTag tagName (count - 1) rest with
          | none => simp [List.length_cons]; omega
          | some k => simp [Option.map_some]; omega
      · have := ih (pos + 1) count hc
        simp only [readUntilEndTagAux, matchingEndTag, hk, hn, if_neg,
          and_false, if_false, Bool.false_eq_true, this]
        cases matchingEndTag tagName count rest with
        | none => simp [List.length_cons]; omega
        | some k => simp [Option.map_some]; omega
    | .startTag =>
      by_cases hn : eqIgnoreAsciiCase t.fullName tagName
      · have := ih (pos + 1) (count + 1) (by omega)
        simp only [readUntilEndTagAux, matchingEndTag, hk, hn, this]
        simp only [reduceCtorEq, false_and, if_false, and_self, if_true]
        cases matchingEndTag tagName (count + 1) rest with
        | none => simp [List.length_cons]; omega
        | some k => simp [Option.map_some]; omega
      · have := ih (pos + 1) count hc
        simp only [readUntilEndTagAux, matchingEndTag, hk, hn, this]
        simp only [reduceCtorEq, false_and, if_false, and_false]
        cases matchingEndTag tagName count rest with
        | none => simp [List.length_cons]; omega
        | some k => simp [Option.map_some]; omega
    | .emptyElementTag | .characters | .processingInstruction
    | .declaration | .comment | .cdata =>
      have := ih (pos + 1) count hc
      simp only [readUntilEndTagAux, matchingEndTag, hk, this,
        reduceCtorEq, false_and, if_false]
      cases matchingEndTag tagName count rest with
      | none => simp [List.length_cons]; omega
      | some k => simp [Option.map_some]; omega

/-- `read_until_end_tag` in terms of the declarative search over the
suffix after the cursor. -/
theorem read_until_end_tag_eq (tagName : String) (tokens : List Token)
    (pos : Nat) :
    read_until_end_tag tagName tokens pos =
      (match matchingEndTag tagName 1 (tokens.drop pos) with
      | some k => (pos + k, pos + k + 1)
      | none => (pos + (tokens.drop pos).length,
                 pos + (tokens.drop pos).length)) :=
  readUntilEndTagAux_eq_matching tagName (tokens.drop pos) pos 1 le_rfl

/-!
## Lazy Hierarchical Iterator — the `impl_iter` macro

`next()` of every generated iterator (atom.rs:203-247, rss.rs:141-195,
opml.rs:138-191) is the same loop: pull tokens; on a start tag compute the
content window with `collect_bytes_until_end_tag` and dispatch; on an
empty-element tag dispatch with content `""`; skip whitespace-only
character data; surface anything else as `Raw`.  The dispatch differs per
nesting level, so the engine returns a format-agnostic `NextResult` that
each level maps through its element constructor.
-/

/-- What one call of the engine produced, before per-level dispatch:
a start tag with its content window, an empty-element tag (empty content,
no window opened), or a raw passthrough token. -/
inductive NextResult
  | start (tag : Token) (window : List Token)
  | empty (tag : Token)
  | raw (t : Token)
deriving DecidableEq, Repr

/-- Loop of the macro-generated `next()`: scan the remaining tokens `rem`
(the suffix of `all` from cursor `pos`).  Always returns the new cursor;
`none` means exhaustion. -/
def engineNextAux (all : List Token) :
    List Token → Nat → Option NextResult × Nat
  | [], pos => (none, pos)
  | t :: rest, pos =>
    match t.kind with
    | .startTag =>
      let r := read_until_end_tag t.fullName all (pos + 1)
      (some (.start t (seg all (pos + 1) r.1)), r.2)
    | .emptyElementTag => (some (.empty t), pos + 1)
    | .characters =>
      if trimIsEmpty t.content then engineNextAux all rest (pos + 1)
      else (some (.raw t), pos + 1)
    | _ => (some (.raw t), pos + 1)

/-- `next()` of an iterator whose window tokenizes to `all`, with cursor at
token index `pos`. -/
def engineNext (all : List Token) (pos : Nat) : Option NextResult × Nat :=
  engineNextAux all (all.drop pos) pos

/-- The extractor never moves the cursor backward. -/
theorem readUntilEndTagAux_pos_le (tagName : String) :
    ∀ (rem : List Token) (pos endAcc count : Nat),
    pos ≤ (readUntilEndTagAux tagName rem pos endAcc count).2 := by
  intro rem
  induction rem with
  | nil => intro pos endAcc count; simp [readUntilEndTagAux]
  | cons t rest ih =>
    intro pos endAcc count
    unfold readUntilEndTagAux
    match t.kind with
    | .endTag =>
      by_cases hn : eqIgnoreAsciiCase t.fullName tagName
      · by_cases h1 : count = 1
        · simp [hn, h1]
        · simp only [hn, h1, if_true, if_false]
          exact le_trans (Nat.le_succ pos) (ih (pos + 1) (pos + 1) (count - 1))
      · simp only [hn, Bool.false_eq_true, if_false]
        exact le_trans (Nat.le_succ pos) (ih (pos + 1) (pos + 1) count)
    | .startTag =>
      by_cases hn : eqIgnoreAsciiCase t.fullName tagName
      · simp only [hn, if_true]
        exact le_trans (Nat.le_succ pos) (ih (pos + 1) (pos + 1) (count + 1))
      · simp only [hn, Bool.false_eq_true, if_false]
        exact le_trans (Nat.le_succ pos) (ih (pos + 1) (pos + 1) count)
    | .emptyElementTag | .characters | .processingInstruction
    | .declaration | .comment | .cdata =>
      exact le_trans (Nat.le_succ pos) (ih (pos + 1) (pos + 1) count)

/-- The results of running one iterator from the start of its window to
exhaustion, written as direct recursion on the token list (shown below to
coincide with repeatedly calling `engineNext`). -/
def engineAll : List Token → List NextResult
  | [] => []
  | t :: rest =>
    match t.kind with
    | .startTag =>
      NextResult.start t
          (seg (t :: rest) 1 (read_until_end_tag t.fullName (t :: rest) 1).1)
        :: engineAll ((t :: rest).drop (read_until_end_tag t.fullName (t :: rest) 1).2)
    | .emptyElementTag => .empty t :: engineAll rest
    | .characters =>
      if trimIsEmpty t.content then engineAll rest
      else .raw t :: engineAll rest
    | _ => .raw t :: engineAll rest
termination_by ts => ts.length
decreasing_by
  · have h1 : 1 ≤ (read_until_end_tag t.fullName (t :: rest) 1).2 :=
      readUntilEndTagAux_pos_le t.fullName ((t :: rest).drop 1) 1 1 1
    simp only [List.length_drop, List.length_cons]
    omega
  all_goals simp [List.length_cons]

/-- The engine depends only on the token suffix after the cursor: running
at cursor `pos` is running at cursor `0` over the dropped list, with the
resulting cursor shifted by `pos`.  (This is what lets a child iterator,
which the source builds over the content slice, behave like the parent
scanning the same region.) -/
theorem engineNextAux_shift :
    ∀ (rem all : List Token) (pos : Nat), all.drop pos = rem →
    engineNextAux all rem pos =
      ((engineNextAux (all.drop pos) rem 0).1,
       pos + (engineNextAux (all.drop pos) rem 0).2) := by
  intro rem
  induction rem with
  | nil => intro all pos _; simp [engineNextAux]
  | cons t rest ih =>
    intro all pos hdrop
    have hdrop1 : all.drop (pos + 1) = rest := by
      have : (all.drop pos).drop 1 = all.drop (pos + 1) :=
        List.drop_drop 1 pos all
      rw [← this, hdrop]
      rfl
    have hdrop1' : (all.drop pos).drop 1 = rest := by
      rw [hdrop]; rfl
    unfold engineNextAux
    match hk : t.kind with
    | .startTag =>
      simp only []
      have h1 := read_until_end_tag_eq t.fullName all (pos + 1)
      have h2 := read_until_end_tag_eq t.fullName (all.drop pos) 1
      rw [hdrop1] at h1
      rw [hdrop1'] at h2
      cases hm : matchingEndTag t.fullName 1 rest with
      | some k =>
        rw [hm] at h1 h2
        simp only at h1 h2
        rw [h1, h2]
        simp only [seg, hdrop1, hdrop1', Prod.mk.injEq]
        have he : pos + 1 + k - (pos + 1) = 1 + k - (0 + 1) := by omega
        rw [he]
        exact ⟨rfl, by omega⟩
      | none =>
        rw [hm] at h1 h2
        simp only at h1 h2
        rw [h1, h2]
        simp only [seg, hdrop1, hdrop1', Prod.mk.injEq]
        have he : pos + 1 + rest.length - (pos + 1) =
            1 + rest.length - (0 + 1) := by omega
        rw [he]
        exact ⟨rfl, by omega⟩
    | .emptyElementTag => simp
    | .characters =>
      by_cases hw : trimIsEmpty t.content
      · simp only [hw, if_true]
        have l1 := ih all (pos + 1) hdrop1
        have l2 := ih (all.drop pos) 1 hdrop1'
        rw [l1, l2, hdrop1, hdrop1']
        simp only [Prod.mk.injEq]
        exact ⟨trivial, by omega⟩
      · simp [hw]
    | .endTag | .processingInstruction | .declaration | .comment
    | .cdata => simp

/-- `engineNext` at any cursor equals `engineNext` at cursor 0 of the
suffix, with the cursor shifted. -/
theorem engineNext_shift (all : List Token) (pos : Nat) :
    engineNext all pos =
      ((engineNext (all.drop pos) 0).1,
       pos + (engineNext (all.drop pos) 0).2) := by
  unfold engineNext
  have h := engineNextAux_shift (all.drop pos) all pos rfl
  rw [h]
  rw [List.drop_zero]

/-- `engineAll` is exactly what repeated calls to `next()` produce: one
step of `engineNext` from the window's start either exhausts (empty run)
or yields the head result, the remaining run being the run over the tokens
after the new cursor. -/
theorem engineAll_eq_step (ts : List Token) :
    engineAll ts =
      (match engineNext ts 0 with
      | (none, _) => []
      | (some r, p) => r :: engineAll (ts.drop p)) := by
  induction ts with
  | nil => simp [engineAll, engineNext, engineNextAux]
  | cons t rest ih =>
    have hd0 : (t :: rest).drop 0 = t :: rest := List.drop_zero _
    match hk : t.kind with
    | .startTag =>
      conv_lhs => rw [engineAll]
      simp only [hk]
      unfold engineNext engineNextAux
      rw [hd0]
      simp only [hk, Nat.zero_add]
    | .emptyElementTag =>
      conv_lhs => rw [engineAll]
      simp only [hk]
      unfold engineNext engineNextAux
      rw [hd0]
      simp only [hk, Nat.zero_add]
      rfl
    | .characters =>
      by_cases hw : trimIsEmpty t.content
      · have h1 : engineNext (t :: rest) 0 =
            ((engineNext rest 0).1, 1 + (engineNext rest 0).2) := by
          unfold engineNext
          rw [List.drop_zero, List.drop_zero]
          have hstep : engineNextAux (t :: rest) (t :: rest) 0 =
              engineNextAux (t :: rest) rest (0 + 1) := by
            rw [engineNextAux]
            simp [hk, hw]
          rw [hstep]
          have hsh := engineNextAux_shift rest (t :: rest) (0 + 1) rfl
          rw [hsh]
          simp only [List.drop_succ_cons, List.drop_zero, Nat.zero_add]
        conv_lhs => rw [engineAll]
        simp only [hk, hw, if_true]
        rw [ih, h1]
        cases hr : engineNext rest 0 with
        | mk o q =>
          cases o with
          | none => simp
          | some r =>
            simp only
            have hq : (1 : Nat) + q = q + 1 := by omega
            rw [hq, List.drop_succ_cons]
      · conv_lhs => rw [engineAll]
        simp only [hk, hw, if_false]
        unfold engineNext engineNextAux
        rw [hd0]
        simp only [hk, hw, if_false, Nat.zero_add]
        rfl
    | .endTag | .processingInstruction | .declaration | .comment
    | .cdata =>
      conv_lhs => rw [engineAll]
      simp only [hk]
      unfold engineNext engineNextAux
      rw [hd0]
      simp only [hk, Nat.zero_add]
      rfl

/-!
## Losslessness bookkeeping

The spans an iterator surfaces: for a dispatched start tag, its tag span
plus its full content window (a typed leaf or `Unknown` carries that window
verbatim as its `content`; a container's child iterator re-walks exactly
the same window); for an empty-element tag, its tag span; for `Raw`, the
token's span.
-/

/-- The byte span a single yielded element accounts for. -/
def surfacedText : NextResult → String
  | .start t w => t.text ++ textOf w
  | .empty t => t.text
  | .raw t => t.text

/-- Concatenation of the spans surfaced by a run of the iterator. -/
def textOfResults (rs : List NextResult) : String :=
  rs.foldr (fun r acc => surfacedText r ++ acc) ""

/-- What the original claim predicts the surfaced concatenation to be:
the whole input with only whitespace-only character runs removed. -/
def claimFullMinusWs (ts : List Token) : String :=
  textOf (ts.filter (fun t =>
    !(t.kind == TokenKind.characters && trimIsEmpty t.content)))

/-- What the code actually reconstructs (the amended claim, in the
specification's vocabulary): walk the tokens; drop whitespace-only
character runs; for a dispatched start tag keep its span and its content
window verbatim but drop its matching end tag (found by the declarative
depth search); keep every other token. -/
def keptText : List Token → String
  | [] => ""
  | t :: rest =>
    match t.kind with
    | .characters =>
      if trimIsEmpty t.content then keptText rest
      else t.text ++ keptText rest
    | .startTag =>
      match matchingEndTag t.fullName 1 rest with
      | some k => t.text ++ textOf (rest.take k) ++ keptText (rest.drop (k + 1))
      | none => t.text ++ textOf rest
    | _ => t.text ++ keptText rest
termination_by ts => ts.length
decreasing_by
  all_goals simp [List.length_drop, List.length_cons]
  omega

/-- Unfolding the surfaced concatenation one element at a time. -/
theorem textOfResults_cons (r : NextResult) (rs : List NextResult) :
    textOfResults (r :: rs) = surfacedText r ++ textOfResults rs := rfl

/-- Losslessness, as the code has it: the concatenation of all spans
surfaced by a full run of the iterator equals the input minus the
whitespace-only character runs this level skipped and minus the matching
end tags of the start tags this level dispatched. -/
theorem textOfResults_engineAll (ts : List Token) :
    textOfResults (engineAll ts) = keptText ts := by
  suffices h : ∀ (n : Nat) (ts : List Token), ts.length = n →
      textOfResults (engineAll ts) = keptText ts from h ts.length ts rfl
  intro n
  induction n using Nat.strong_induction_on with
  | _ n ih =>
    intro ts hn
    match ts, hn with
    | [], _ => simp [engineAll, keptText, textOfResults]
    | t :: rest, hn =>
      match hk : t.kind with
      | .startTag =>
        rw [engineAll, keptText]
        simp only [hk]
        have hr := read_until_end_tag_eq t.fullName (t :: rest) 1
        have hd1 : (t :: rest).drop 1 = rest := rfl
        rw [hd1] at hr
        cases hm : matchingEndTag t.fullName 1 rest with
        | some k =>
          rw [hm] at hr
          simp only at hr
          rw [hr, textOfResults_cons]
          simp only [seg, hd1, surfacedText]
          have hdp : (t :: rest).drop (1 + k + 1) = rest.drop (k + 1) := by
            have : 1 + k + 1 = (k + 1) + 1 := by omega
            rw [this, List.drop_succ_cons]
          rw [hdp]
          have hlen : (rest.drop (k + 1)).length < n := by
            simp only [List.length_drop]
            simp only [List.length_cons] at hn
            omega
          rw [ih (rest.drop (k + 1)).length hlen (rest.drop (k + 1)) rfl]
          have htk : 1 + k - 1 = k := by omega
          rw [htk]
        | none =>
          rw [hm] at hr
          simp only at hr
          rw [hr, textOfResults_cons]
          simp only [seg, hd1, surfacedText]
          have hdp : (t :: rest).drop (1 + rest.length) = [] := by
            apply List.drop_eq_nil_of_le
            simp only [List.length_cons]
            omega
          rw [hdp]
          have htk : 1 + rest.length - 1 = rest.length := by omega
          rw [htk, List.take_length]
          show t.text ++ textOf rest ++ textOfResults (engineAll []) = _
          rw [engineAll]
          simp [textOfResults, String.append_assoc]
      | .characters =>
        by_cases hw : trimIsEmpty t.content
        · rw [engineAll, keptText]
          simp only [hk, hw, if_true]
          have hlen : rest.length < n := by
            simp only [List.length_cons] at hn; omega
          exact ih rest.length hlen rest rfl
        · rw [engineAll, keptText]
          simp only [hk, hw, Bool.false_eq_true, if_false]
          rw [textOfResults_cons]
          simp only [surfacedText]
          have hlen : rest.length < n := by
            simp only [List.length_cons] at hn; omega
          rw [ih rest.length hlen rest rfl]
      | .emptyElementTag =>
        rw [engineAll, keptText]
        simp only [hk]
        rw [textOfResults_cons]
        simp only [surfacedText]
        have hlen : rest.length < n := by
          simp only [List.length_cons] at hn; omega
        rw [ih rest.length hlen rest rfl]
      | .endTag | .processingInstruction | .declaration | .comment
      | .cdata =>
        rw [engineAll, keptText]
        simp only [hk]
        rw [textOfResults_cons]
        simp only [surfacedText]
        have hlen : rest.length < n := by
          simp only [List.length_cons] at hn; omega
        rw [ih rest.length hlen rest rfl]

/-!
## Typed elements and per-level dispatch

A container element owns a fresh child iterator seeded with its content
window (`Reader::from_str(content), pos: 0` in the source); a leaf or
`Unknown` element carries the tag and the content slice.  One
format-agnostic `dispatchNext` maps the engine's result through a level's
`new` constructor, exactly as each `impl_iter` expansion does inline.
-/

/-- A nested iterator: the owning tag, the window's tokens, and the cursor
(`{ tag, reader: Reader::from_str(content), pos: 0 }`). -/
structure SubIter where
  tag : Token
  tokens : List Token
  pos : Nat
deriving DecidableEq, Repr

/-- A leaf or `Unknown` element: the tag and its content window. -/
structure ContentElem where
  tag : Token
  window : List Token
deriving DecidableEq, Repr

/-- `content()` of a leaf element: the content slice. -/
def ContentElem.content (e : ContentElem) : String := textOf e.window

/-- Seed a child iterator over a content window. -/
def mkSubIter (tag : Token) (w : List Token) : SubIter := ⟨tag, w, 0⟩

/-- One `next()` call of a generated iterator at a given level: run the
shared engine, then dispatch a start tag with its window, an empty-element
tag with empty content, and surface raw tokens through the level's `Raw`
constructor. -/
def dispatchNext {α : Type} (new : Token → List Token → α) (mkRaw : Token → α)
    (ts : List Token) (pos : Nat) : Option α × Nat :=
  match engineNext ts pos with
  | (some (.start t w), p) => (some (new t w), p)
  | (some (.empty t), p) => (some (new t []), p)
  | (some (.raw t), p) => (some (mkRaw t), p)
  | (none, p) => (none, p)

/-- Dispatch by vocabulary table, written from the specification's
wording: scan the level's fixed table, first ASCII-case-insensitive match
of the local name wins, no match falls back to `Unknown`. -/
def lookupVocab {α : Type} (tag : Token) (w : List Token) :
    List (String × (Token → List Token → α)) → (Token → List Token → α) → α
  | [], fallback => fallback tag w
  | e :: rest, fallback =>
    if eqIgnoreAsciiCase tag.localName e.1 then e.2 tag w
    else lookupVocab tag w rest fallback

/-- A tag that matches no table entry falls through to the fallback. -/
theorem lookupVocab_none {α : Type} (tag : Token) (w : List Token)
    (table : List (String × (Token → List Token → α)))
    (fallback : Token → List Token → α)
    (h : ∀ e ∈ table, eqIgnoreAsciiCase tag.localName e.1 = false) :
    lookupVocab tag w table fallback = fallback tag w := by
  induction table with
  | nil => rfl
  | cons e rest ih =>
    rw [lookupVocab]
    rw [h e (List.mem_cons_self e rest)]
    simp only [Bool.false_eq_true, if_false]
    exact ih fun x hx => h x (List.mem_cons_of_mem e hx)

namespace atom

/-- `atom::FeedElem` (atom.rs): the feed level's vocabulary. -/
inductive FeedElem
  | author (it : SubIter)
  | category (e : ContentElem)
  | contributor (it : SubIter)
  | generator (e : ContentElem)
  | icon (e : ContentElem)
  | id (e : ContentElem)
  | link (e : ContentElem)
  | logo (e : ContentElem)
  | rights (e : ContentElem)
  | subtitle (e : ContentElem)
  | title (e : ContentElem)
  | updated (e : ContentElem)
  | entry (it : SubIter)
  | unknown (e : ContentElem)
  | raw (t : Token)
deriving DecidableEq, Repr

/-- `atom::FeedElem::new` (atom.rs:471-515): the macro-generated chain of
ASCII-case-insensitive local-name tests, in source order, falling through
to `Unknown`. -/
def FeedElem.new (tag : Token) (w : List Token) : FeedElem :=
  let ln := tag.localName
  if eqIgnoreAsciiCase ln "entry" then .entry (mkSubIter tag w)
  else if eqIgnoreAsciiCase ln "author" then .author (mkSubIter tag w)
  else if eqIgnoreAsciiCase ln "category" then .category ⟨tag, w⟩
  else if eqIgnoreAsciiCase ln "contributor" then .contributor (mkSubIter tag w)
  else if eqIgnoreAsciiCase ln "generator" then .generator ⟨tag, w⟩
  else if eqIgnoreAsciiCase ln "icon" then .icon ⟨tag, w⟩
  else if eqIgnoreAsciiCase ln "id" then .id ⟨tag, w⟩
  else if eqIgnoreAsciiCase ln "link" then .link ⟨tag, w⟩
  else if eqIgnoreAsciiCase ln "logo" then .logo ⟨tag, w⟩
  else if eqIgnoreAsciiCase ln "rights" then .rights ⟨tag, w⟩
  else if eqIgnoreAsciiCase ln "subtitle" then .subtitle ⟨tag, w⟩
  else if eqIgnoreAsciiCase ln "title" then .title ⟨tag, w⟩
  else if eqIgnoreAsciiCase ln "updated" then .updated ⟨tag, w⟩
  else .unknown ⟨tag, w⟩

/-- The feed level's vocabulary table, in the source's match order. -/
def feedVocab : List (String × (Token → List Token → FeedElem)) :=
  [("entry", fun t w => .entry (mkSubIter t w)),
   ("author", fun t w => .author (mkSubIter t w)),
   ("category", fun t w => .category ⟨t, w⟩),
   ("contributor", fun t w => .contributor (mkSubIter t w)),
   ("generator", fun t w => .generator ⟨t, w⟩),
   ("icon", fun t w => .icon ⟨t, w⟩),
   ("id", fun t w => .id ⟨t, w⟩),
   ("link", fun t w => .link ⟨t, w⟩),
   ("logo", fun t w => .logo ⟨t, w⟩),
   ("rights", fun t w => .rights ⟨t, w⟩),
   ("subtitle", fun t w => .subtitle ⟨t, w⟩),
   ("title", fun t w => .title ⟨t, w⟩),
   ("updated", fun t w => .updated ⟨t, w⟩)]

/-- `atom::Elem` (atom.rs): the document level recognizes only `feed`. -/
inductive Elem
  | feed (it : SubIter)
  | unknown (e : ContentElem)
  | raw (t : Token)
deriving DecidableEq, Repr

/-- `atom::Elem::new` (atom.rs:606-626). -/
def Elem.new (tag : Token) (w : List Token) : Elem :=
  if eqIgnoreAsciiCase tag.localName "feed" then .feed (mkSubIter tag w)
  else .unknown ⟨tag, w⟩

/-- `next()` of `atom::Iter` (atom.rs, `impl_iter!(Iter, Elem, Elem::new)`). -/
def nextElem (ts : List Token) (pos : Nat) : Option Elem × Nat :=
  dispatchNext Elem.new Elem.raw ts pos

/-- `next()` of `atom::FeedIter`
(atom.rs, `impl_iter!(with_tag FeedIter, FeedElem, FeedElem::new)`). -/
def nextFeedElem (ts : List Token) (pos : Nat) : Option FeedElem × Nat :=
  dispatchNext FeedElem.new FeedElem.raw ts pos

end atom

namespace opml

/-- `opml::OutlineElem` (opml.rs): an outline recognizes only nested
`outline` containers. -/
inductive OutlineElem
  | outline (it : SubIter)
  | unknown (e : ContentElem)
  | raw (t : Token)
deriving DecidableEq, Repr

/-- `opml::OutlineElem::new` (opml.rs:317-340). -/
def OutlineElem.new (tag : Token) (w : List Token) : OutlineElem :=
  if eqIgnoreAsciiCase tag.localName "outline" then .outline (mkSubIter tag w)
  else .unknown ⟨tag, w⟩

/-- The outline level's vocabulary table. -/
def outlineVocab : List (String × (Token → List Token → OutlineElem)) :=
  [("outline", fun t w => .outline (mkSubIter t w))]

/-- `opml::BodyElem` (opml.rs). -/
inductive BodyElem
  | outline (it : SubIter)
  | unknown (e : ContentElem)
  | raw (t : Token)
deriving DecidableEq, Repr

/-- `opml::BodyElem::new` (opml.rs:292-315). -/
def BodyElem.new (tag : Token) (w : List Token) : BodyElem :=
  if eqIgnoreAsciiCase tag.localName "outline" then .outline (mkSubIter tag w)
  else .unknown ⟨tag, w⟩

/-- `next()` of `opml::BodyIter`.  The opml (and rss) `impl_iter` call a
`collect_bytes_until_end_tag(namespace, local_name, …)` signature that is
not present in this snapshot's `src/xml.rs`; the iterator is modelled on
the depth-tracking extractor that `src/xml.rs` does define (the behavior
the specification §9 designates as intended). -/
def nextBodyElem (ts : List Token) (pos : Nat) : Option BodyElem × Nat :=
  dispatchNext BodyElem.new BodyElem.raw ts pos

/-- `next()` of `opml::OutlineIter` (see `nextBodyElem` for the extractor
note). -/
def nextOutlineElem (ts : List Token) (pos : Nat) :
    Option OutlineElem × Nat :=
  dispatchNext OutlineElem.new OutlineElem.raw ts pos

end opml

/-!
## Document Type Sniffer — `detect_type` and `xml::find_ty`
-/

/-- `readfeed::Ty` (lib.rs). -/
inductive Ty
  | atom
  | json
  | rss
  | unknown
  | xmlOrHtml
deriving DecidableEq, Repr

/-- `xml::map_tag_name_to_ty` (xml.rs:8-17). -/
def map_tag_name_to_ty (t : Token) : Ty :=
  if eqIgnoreAsciiCase t.localName "rss" then .rss
  else if eqIgnoreAsciiCase t.localName "feed" then .atom
  else .xmlOrHtml

/-- `xml::find_ty` (xml.rs:19-52): the first decisive token classifies the
document; comments, declarations, processing instructions and
whitespace-only character or CDATA runs are skipped; an exhausted stream
yields `Unknown`. -/
def find_ty : List Token → Ty
  | [] => .unknown
  | t :: rest =>
    match t.kind with
    | .startTag => map_tag_name_to_ty t
    | .emptyElementTag => map_tag_name_to_ty t
    | .endTag => .xmlOrHtml
    | .characters =>
      if t.text.toList.all isAsciiWhitespace then find_ty rest
      else .xmlOrHtml
    | .cdata =>
      if t.content.toList.all isAsciiWhitespace then find_ty rest
      else .xmlOrHtml
    | .processingInstruction => find_ty rest
    | .declaration => find_ty rest
    | .comment => find_ty rest

/-- `readfeed::detect_type` (lib.rs:181-193).  `input` is the raw text and
`tokens` is what the external Token Source produces for it (`find_ty`
re-tokenizes the same input). -/
def detect_type (input : String) (tokens : List Token) : Ty :=
  match input.toList.find? (fun c => !isRustWhitespace c) with
  | some c =>
    if c = '{' ∨ c = '[' then Ty.json
    else if c = '<' then find_ty tokens
    else Ty.unknown
  | none => Ty.unknown

/-!
## Lazy attribute lookup — `Tag::find_attribute`
-/

/-- The scan loop of `Tag::find_attribute` (lib.rs:217-235): walk the
attribute list in order; on the first ASCII-case-insensitive name match
return that attribute's (optional) value; return `none` when the list is
exhausted (or the tag had no attribute list at all, which the source
represents as `attributes()` returning `None`). -/
def find_attribute : List Attr → String → Option String
  | [], _ => none
  | a :: rest, needle =>
    if eqIgnoreAsciiCase a.name needle then a.value
    else find_attribute rest needle

/-- `Tag::find_attribute` on a tag token. -/
def Token.find_attribute (t : Token) (needle : String) : Option String :=
  Readfeed.find_attribute t.attrs needle

/-!
## Supporting lemmas for the claims
-/

/-- Extracting a cons cell at a cursor position. -/
theorem drop_cons_of_getElem (ts : List Token) (pos : Nat) (t : Token)
    (h : ts[pos]? = some t) : ts.drop pos = t :: ts.drop (pos + 1) := by
  obtain ⟨hlt, he⟩ := List.getElem?_eq_some.mp h
  rw [List.drop_eq_getElem_cons hlt, he]

/-- Consuming one token advances the byte cursor by exactly that token's
span length. -/
theorem byteOff_succ (ts : List Token) (pos : Nat) (t : Token)
    (h : ts[pos]? = some t) :
    byteOff ts (pos + 1) = byteOff ts pos + tokLen t := by
  unfold byteOff
  rw [List.take_succ, h]
  simp

/-- The token the declarative depth search designates really is an
end tag with the searched-for name. -/
theorem matchingEndTag_getElem (tagName : String) :
    ∀ (rem : List Token) (depth k : Nat),
    matchingEndTag tagName depth rem = some k →
    ∃ t, rem[k]? = some t ∧ t.kind = TokenKind.endTag ∧
      eqIgnoreAsciiCase t.fullName tagName = true := by
  intro rem
  induction rem with
  | nil => intro depth k h; simp [matchingEndTag] at h
  | cons t rest ih =>
    intro depth k h
    rw [matchingEndTag] at h
    by_cases h1 : t.kind = TokenKind.endTag ∧
        eqIgnoreAsciiCase t.fullName tagName
    · rw [if_pos h1] at h
      by_cases hd : depth = 1
      · rw [if_pos hd] at h
        cases h
        exact ⟨t, by rw [List.getElem?_cons_zero], h1.1, h1.2⟩
      · rw [if_neg hd] at h
        cases hm : matchingEndTag tagName (depth - 1) rest with
        | none => rw [hm] at h; cases h
        | some j =>
          rw [hm] at h
          simp only [Option.map_some', Option.some.injEq] at h
          obtain ⟨u, hu, hk, hn⟩ := ih (depth - 1) j hm
          subst h
          exact ⟨u, by rw [List.getElem?_cons_succ]; exact hu, hk, hn⟩
    · rw [if_neg h1] at h
      by_cases h2 : t.kind = TokenKind.startTag ∧
          eqIgnoreAsciiCase t.fullName tagName
      · rw [if_pos h2] at h
        cases hm : matchingEndTag tagName (depth + 1) rest with
        | none => rw [hm] at h; cases h
        | some j =>
          rw [hm] at h
          simp only [Option.map_some', Option.some.injEq] at h
          obtain ⟨u, hu, hk, hn⟩ := ih (depth + 1) j hm
          subst h
          exact ⟨u, by rw [List.getElem?_cons_succ]; exact hu, hk, hn⟩
      · rw [if_neg h2] at h
        cases hm : matchingEndTag tagName depth rest with
        | none => rw [hm] at h; cases h
        | some j =>
          rw [hm] at h
          simp only [Option.map_some', Option.some.injEq] at h
          obtain ⟨u, hu, hk, hn⟩ := ih depth j hm
          subst h
          exact ⟨u, by rw [List.getElem?_cons_succ]; exact hu, hk, hn⟩

/-- An exhausted engine call leaves the cursor at the end of the window. -/
theorem engineNextAux_none_drop :
    ∀ (rem all : List Token) (pos p : Nat), all.drop pos = rem →
    engineNextAux all rem pos = (none, p) → all.drop p = [] := by
  intro rem
  induction rem with
  | nil =>
    intro all pos p hdrop h
    rw [engineNextAux] at h
    cases h
    exact hdrop
  | cons t rest ih =>
    intro all pos p hdrop h
    rw [engineNextAux] at h
    match hk : t.kind with
    | .startTag => rw [hk] at h; simp at h
    | .emptyElementTag => rw [hk] at h; simp at h
    | .characters =>
      rw [hk] at h
      by_cases hw : trimIsEmpty t.content
      · rw [if_pos hw] at h
        have hdrop1 : all.drop (pos + 1) = rest := by
          have h2 : (all.drop pos).drop 1 = all.drop (pos + 1) :=
            List.drop_drop 1 pos all
          rw [← h2, hdrop]
          rfl
        exact ih all (pos + 1) p hdrop1 h
      · rw [if_neg hw] at h; simp at h
    | .endTag | .processingInstruction | .declaration | .comment
    | .cdata => rw [hk] at h; simp at h

/-!
## Concrete scenario inputs (tokens as the Token Source reports them)
-/

/-- `<outline>` start tag. -/
def outlineStartTok : Token :=
  { kind := .startTag, localName := "outline", text := "<outline>" }

/-- `<outline/>` empty-element tag. -/
def outlineEmptyTok : Token :=
  { kind := .emptyElementTag, localName := "outline", text := "<outline/>" }

/-- `</outline>` end tag. -/
def outlineEndTok : Token :=
  { kind := .endTag, localName := "outline", text := "</outline>" }

/-- Tokens of `<outline><outline/></outline>` (the content of an OPML
`<body>`). -/
def outlineDoc : List Token := [outlineStartTok, outlineEmptyTok, outlineEndTok]

/-- `<entry>` start tag. -/
def entryTok : Token :=
  { kind := .startTag, localName := "entry", text := "<entry>" }

/-- `<title>` start tag. -/
def titleTok : Token :=
  { kind := .startTag, localName := "title", text := "<title>" }

/-- The character run `abc`. -/
def abcTok : Token :=
  { kind := .characters, text := "abc", content := "abc" }

/-- Tokens of the truncated input `<entry><title>abc` (no closing tags). -/
def truncatedDoc : List Token := [entryTok, titleTok, abcTok]

/-- A comment token `<!-- c -->`. -/
def commentTok : Token :=
  { kind := .comment, text := "<!-- c -->" }

/-!
## The claims
-/

/-- C1: for a start tag named `T` with the cursor immediately after it,
`read_until_end_tag` returns the index of the matching end tag (so, in
bytes, the end offset `byteOff` is the start of that end tag) and leaves
the cursor immediately after it, where the matching end tag is the one the
depth counter designates (start at 1, +1 on same-named start tags, −1 on
same-named end tags, stop at 0, names compared ASCII-case-insensitively);
and for `<outline><outline/></outline>` the outer outline's window is
exactly the inner `<outline/>`, whose iterator yields exactly one element
before exhaustion. -/
theorem c1_content_window :
    (∀ (tagName : String) (ts : List Token) (pos k : Nat),
      matchingEndTag tagName 1 (ts.drop pos) = some k →
      read_until_end_tag tagName ts pos = (pos + k, pos + k + 1) ∧
      ∃ t, ts[pos + k]? = some t ∧ t.kind = TokenKind.endTag ∧
        eqIgnoreAsciiCase t.fullName tagName = true ∧
        byteOff ts (pos + k + 1) = byteOff ts (pos + k) + tokLen t) ∧
    (opml.nextBodyElem outlineDoc 0 =
        (some (.outline ⟨outlineStartTok, [outlineEmptyTok], 0⟩), 3) ∧
     opml.nextOutlineElem [outlineEmptyTok] 0 =
        (some (.outline ⟨outlineEmptyTok, [], 0⟩), 1) ∧
     opml.nextOutlineElem [outlineEmptyTok] 1 = (none, 1)) := by
  constructor
  · intro tagName ts pos k hm
    have hr := read_until_end_tag_eq tagName ts pos
    rw [hm] at hr
    simp only at hr
    refine ⟨hr, ?_⟩
    obtain ⟨t, hget, hkind, hname⟩ :=
      matchingEndTag_getElem tagName (ts.drop pos) 1 k hm
    rw [List.getElem?_drop] at hget
    exact ⟨t, hget, hkind, hname, byteOff_succ ts (pos + k) t hget⟩
  · exact ⟨by decide, by decide, by decide⟩

/-- Witness for C1 at the outline document: the declarative search finds
the matching `</outline>` at relative index 1, and the extractor stops
there with the cursor after it. -/
theorem c1_content_window_witness :
    matchingEndTag "outline" 1 (outlineDoc.drop 1) = some 1 ∧
    (read_until_end_tag "outline" outlineDoc 1 = (1 + 1, 1 + 1 + 1) ∧
     ∃ t, outlineDoc[1 + 1]? = some t ∧ t.kind = TokenKind.endTag ∧
       eqIgnoreAsciiCase t.fullName "outline" = true ∧
       byteOff outlineDoc (1 + 1 + 1) =
         byteOff outlineDoc (1 + 1) + tokLen t) :=
  ⟨by decide, c1_content_window.1 "outline" outlineDoc 1 1 (by decide)⟩

/-- C3: when no matching end tag exists before the end of input, the
extractor stops with the content end equal to the end of the last read
token (the whole remaining window: the end-of-input index, in bytes the
total span), the cursor likewise, and no error is possible (the function
is total); iterating the truncated window proceeds normally and
terminates, as on `<entry><title>abc`. -/
theorem c3_truncation :
    (∀ (tagName : String) (ts : List Token) (pos : Nat),
      matchingEndTag tagName 1 (ts.drop pos) = none →
      read_until_end_tag tagName ts pos =
        (pos + (ts.drop pos).length, pos + (ts.drop pos).length) ∧
      (pos ≤ ts.length → pos + (ts.drop pos).length = ts.length)) ∧
    (atom.nextElem truncatedDoc 0 =
        (some (.unknown ⟨entryTok, [titleTok, abcTok]⟩), 3) ∧
     atom.nextElem truncatedDoc 3 = (none, 3) ∧
     atom.nextFeedElem [titleTok, abcTok] 0 =
        (some (.title ⟨titleTok, [abcTok]⟩), 2) ∧
     atom.nextFeedElem [titleTok, abcTok] 2 = (none, 2)) := by
  constructor
  · intro tagName ts pos hm
    have hr := read_until_end_tag_eq tagName ts pos
    rw [hm] at hr
    simp only at hr
    refine ⟨hr, fun hle => ?_⟩
    rw [List.length_drop]
    omega
  · exact ⟨by decide, by decide, by decide, by decide⟩

/-- Witness for C3 inside the truncated window `<title>abc`: no matching
`</title>` exists, so the window is cut at the end of input. -/
theorem c3_truncation_witness :
    matchingEndTag "title" 1 ([titleTok, abcTok].drop 1) = none ∧
    (read_until_end_tag "title" [titleTok, abcTok] 1 =
        (1 + ([titleTok, abcTok].drop 1).length,
         1 + ([titleTok, abcTok].drop 1).length) ∧
     (1 ≤ [titleTok, abcTok].length →
       1 + ([titleTok, abcTok].drop 1).length = [titleTok, abcTok].length)) :=
  ⟨by decide, c3_truncation.1 "title" [titleTok, abcTok] 1 (by decide)⟩

/-- C4: on each `next()` call, a whitespace-only character-data token is
consumed and never yielded (the call behaves as if started just past it),
while every other non-tag token — end tag, comment, CDATA, declaration,
processing instruction, or a non-whitespace character run — is returned as
the `Raw` variant carrying the token unchanged, the cursor advancing by
exactly that token's span. -/
theorem c4_ws_skip_and_raw :
    ∀ (ts : List Token) (pos : Nat) (t : Token), ts[pos]? = some t →
      ((t.kind = TokenKind.characters → trimIsEmpty t.content = true →
          engineNext ts pos = engineNext ts (pos + 1)) ∧
       ((t.kind = TokenKind.endTag ∨ t.kind = TokenKind.comment ∨
         t.kind = TokenKind.cdata ∨ t.kind = TokenKind.declaration ∨
         t.kind = TokenKind.processingInstruction ∨
         (t.kind = TokenKind.characters ∧ trimIsEmpty t.content = false)) →
          engineNext ts pos = (some (.raw t), pos + 1) ∧
          atom.nextFeedElem ts pos = (some (.raw t), pos + 1) ∧
          byteOff ts (pos + 1) = byteOff ts pos + tokLen t)) := by
  intro ts pos t hget
  have hdrop : ts.drop pos = t :: ts.drop (pos + 1) :=
    drop_cons_of_getElem ts pos t hget
  constructor
  · intro hk hw
    unfold engineNext
    rw [hdrop, engineNextAux, hk]
    simp only [hw, if_true]
  · intro hcase
    have hraw : engineNext ts pos = (some (.raw t), pos + 1) := by
      unfold engineNext
      rw [hdrop, engineNextAux]
      rcases hcase with hk | hk | hk | hk | hk | ⟨hk, hw⟩ <;>
        simp [hk]
      intro hw2
      rw [hw2] at hw
      cases hw
    refine ⟨hraw, ?_, byteOff_succ ts pos t hget⟩
    unfold atom.nextFeedElem dispatchNext
    rw [hraw]

/-- Witness for C4: a comment token is surfaced as `Raw` with the cursor
advanced past it. -/
theorem c4_ws_skip_and_raw_witness :
    ((commentTok.kind = TokenKind.characters →
        trimIsEmpty commentTok.content = true →
        engineNext [commentTok] 0 = engineNext [commentTok] (0 + 1)) ∧
     ((commentTok.kind = TokenKind.endTag ∨
       commentTok.kind = TokenKind.comment ∨
       commentTok.kind = TokenKind.cdata ∨
       commentTok.kind = TokenKind.declaration ∨
       commentTok.kind = TokenKind.processingInstruction ∨
       (commentTok.kind = TokenKind.characters ∧
        trimIsEmpty commentTok.content = false)) →
        engineNext [commentTok] 0 = (some (.raw commentTok), 0 + 1) ∧
        atom.nextFeedElem [commentTok] 0 = (some (.raw commentTok), 0 + 1) ∧
        byteOff [commentTok] (0 + 1) =
          byteOff [commentTok] 0 + tokLen commentTok)) :=
  c4_ws_skip_and_raw [commentTok] 0 commentTok (by decide)

/-- C7: exhaustion is terminal.  When `next()` yields nothing it has left
the cursor at the end of its window, so every subsequent call yields
nothing again with the same cursor — there is no transition back to a
producing state.  Stated for the shared engine and for two typed
instantiations. -/
theorem c7_exhaustion_terminal :
    (∀ (ts : List Token) (pos p : Nat),
      engineNext ts pos = (none, p) → engineNext ts p = (none, p)) ∧
    (∀ (ts : List Token) (pos p : Nat),
      atom.nextFeedElem ts pos = (none, p) →
      atom.nextFeedElem ts p = (none, p)) ∧
    (∀ (ts : List Token) (pos p : Nat),
      opml.nextOutlineElem ts pos = (none, p) →
      opml.nextOutlineElem ts p = (none, p)) := by
  have hengine : ∀ (ts : List Token) (pos p : Nat),
      engineNext ts pos = (none, p) → engineNext ts p = (none, p) := by
    intro ts pos p h
    have hnil : ts.drop p = [] :=
      engineNextAux_none_drop (ts.drop pos) ts pos p rfl h
    unfold engineNext
    rw [hnil, engineNextAux]
  have hdispatch : ∀ {α : Type} (new : Token → List Token → α)
      (mkRaw : Token → α) (ts : List Token) (pos p : Nat),
      dispatchNext new mkRaw ts pos = (none, p) →
      dispatchNext new mkRaw ts p = (none, p) := by
    intro α new mkRaw ts pos p h
    unfold dispatchNext at h ⊢
    cases he : engineNext ts pos with
    | mk o q =>
      rw [he] at h
      match o, h with
      | none, h =>
        simp only at h
        have : q = p := by cases h; rfl
        subst this
        rw [hengine ts pos q he]
  exact ⟨hengine,
    fun ts pos p h => hdispatch atom.FeedElem.new atom.FeedElem.raw ts pos p h,
    fun ts pos p h =>
      hdispatch opml.OutlineElem.new opml.OutlineElem.raw ts pos p h⟩

/-- Witness for C7: an iterator exhausted at the end of a one-token window
stays exhausted. -/
theorem c7_exhaustion_terminal_witness :
    engineNext [commentTok] 1 = (none, 1) :=
  c7_exhaustion_terminal.1 [commentTok] 1 1 (by decide)

/-- C8: an empty-element tag yields an element dispatched with empty
content — the engine reports it without opening any content window and the
cursor advances only past the tag itself. -/
theorem c8_empty_element :
    ∀ (ts : List Token) (pos : Nat) (t : Token), ts[pos]? = some t →
      t.kind = TokenKind.emptyElementTag →
      engineNext ts pos = (some (.empty t), pos + 1) ∧
      atom.nextFeedElem ts pos = (some (atom.FeedElem.new t []), pos + 1) ∧
      opml.nextOutlineElem ts pos =
        (some (opml.OutlineElem.new t []), pos + 1) ∧
      byteOff ts (pos + 1) = byteOff ts pos + tokLen t ∧
      textOf ([] : List Token) = "" := by
  intro ts pos t hget hk
  have hdrop : ts.drop pos = t :: ts.drop (pos + 1) :=
    drop_cons_of_getElem ts pos t hget
  have heng : engineNext ts pos = (some (.empty t), pos + 1) := by
    unfold engineNext
    rw [hdrop, engineNextAux, hk]
  refine ⟨heng, ?_, ?_, byteOff_succ ts pos t hget, rfl⟩
  · unfold atom.nextFeedElem dispatchNext
    rw [heng]
  · unfold opml.nextOutlineElem dispatchNext
    rw [heng]

/-- Witness for C8: the inner `<outline/>` of the nested-outline document
yields an outline element with empty content. -/
theorem c8_empty_element_witness :
    engineNext [outlineEmptyTok] 0 =
        (some (.empty outlineEmptyTok), 0 + 1) ∧
    atom.nextFeedElem [outlineEmptyTok] 0 =
        (some (atom.FeedElem.new outlineEmptyTok []), 0 + 1) ∧
    opml.nextOutlineElem [outlineEmptyTok] 0 =
        (some (opml.OutlineElem.new outlineEmptyTok []), 0 + 1) ∧
    byteOff [outlineEmptyTok] (0 + 1) =
        byteOff [outlineEmptyTok] 0 + tokLen outlineEmptyTok ∧
    textOf ([] : List Token) = "" :=
  c8_empty_element [outlineEmptyTok] 0 outlineEmptyTok (by decide) (by decide)

/-- `<a>` start tag. -/
def aStartTok : Token :=
  { kind := .startTag, localName := "a", text := "<a>" }

/-- `</a>` end tag. -/
def aEndTok : Token :=
  { kind := .endTag, localName := "a", text := "</a>" }

/-- C2 counterexample: on `<a></a>` the recursively surfaced spans
concatenate to `<a>` — the matching end tag `</a>` is consumed by the
window scan and surfaced by nothing — so the claimed reconstruction
"input with only whitespace-only character runs removed" (`<a></a>`,
since there is no whitespace) fails. -/
theorem c2_counterexample :
    textOfResults (engineAll [aStartTok, aEndTok]) = "<a>" ∧
    claimFullMinusWs [aStartTok, aEndTok] = "<a></a>" ∧
    textOfResults (engineAll [aStartTok, aEndTok]) ≠
      claimFullMinusWs [aStartTok, aEndTok] := by
  have h0 : engineNext [aStartTok, aEndTok] 0 =
      (some (NextResult.start aStartTok []), 2) := by decide
  have h1 : textOfResults (engineAll [aStartTok, aEndTok]) = "<a>" := by
    rw [engineAll_eq_step, h0]
    show textOfResults
      (NextResult.start aStartTok [] :: engineAll ([aStartTok, aEndTok].drop 2)) = "<a>"
    rw [show ([aStartTok, aEndTok].drop 2) = [] from rfl, engineAll_eq_step]
    show textOfResults [NextResult.start aStartTok []] = "<a>"
    decide
  refine ⟨h1, by decide, ?_⟩
  rw [h1]
  decide

/-- C2 (amended): a full run of an iterator surfaces, in order, spans that
concatenate to its input with only the whitespace-only character runs that
this iterator skipped and the matching end tags of its dispatched start
tags removed (each dispatched element accounts for its start tag plus its
entire content window verbatim; child iterators of containers re-apply
the same equation to their own windows); and the run really is the
iterator's `next()` loop iterated to exhaustion. -/
theorem c2_losslessness_amended :
    ∀ ts : List Token,
      textOfResults (engineAll ts) = keptText ts ∧
      engineAll ts =
        (match engineNext ts 0 with
        | (none, _) => []
        | (some r, p) => r :: engineAll (ts.drop p)) :=
  fun ts => ⟨textOfResults_engineAll ts, engineAll_eq_step ts⟩

/-- The character run `{}`. -/
def braceTok : Token :=
  { kind := .characters, text := "{}", content := "{}" }

/-- `<rss>` start tag. -/
def rssStartTok : Token :=
  { kind := .startTag, localName := "rss", text := "<rss>" }

/-- `</rss>` end tag. -/
def rssEndTok : Token :=
  { kind := .endTag, localName := "rss", text := "</rss>" }

/-- `<feed/>` empty-element tag. -/
def feedEmptyTok : Token :=
  { kind := .emptyElementTag, localName := "feed", text := "<feed/>" }

/-- `<div>` start tag. -/
def divStartTok : Token :=
  { kind := .startTag, localName := "div", text := "<div>" }

/-- The character run `x`. -/
def xCharsTok : Token :=
  { kind := .characters, text := "x", content := "x" }

/-- `</div>` end tag. -/
def divEndTok : Token :=
  { kind := .endTag, localName := "div", text := "</div>" }

/-- C5: `detect_type` classifies by the first non-whitespace character —
`{` or `[` gives Json with no token inspection, `<` delegates to
`find_ty`'s scan, anything else (or an all-whitespace/empty input) gives
Unknown — and `find_ty` returns the class of the first decisive token:
start/empty tags classify by local name (`rss` → Rss, `feed` → Atom,
otherwise XmlOrHtml), end tags and non-whitespace character or CDATA runs
give XmlOrHtml, comments, declarations, processing instructions and
whitespace-only runs are skipped, and an exhausted stream gives Unknown.
The five quoted scenarios evaluate accordingly. -/
theorem c5_detect_type :
    (∀ (input : String) (ts : List Token) (c : Char),
      input.toList.find? (fun c => !isRustWhitespace c) = some c →
      ((c = '{' ∨ c = '[') → detect_type input ts = Ty.json) ∧
      (c = '<' → detect_type input ts = find_ty ts) ∧
      (c ≠ '{' → c ≠ '[' → c ≠ '<' → detect_type input ts = Ty.unknown)) ∧
    (∀ (input : String) (ts : List Token),
      input.toList.find? (fun c => !isRustWhitespace c) = none →
      detect_type input ts = Ty.unknown) ∧
    (find_ty [] = Ty.unknown) ∧
    (∀ (t : Token) (rest : List Token),
      t.kind = TokenKind.startTag ∨ t.kind = TokenKind.emptyElementTag →
      find_ty (t :: rest) = map_tag_name_to_ty t) ∧
    (∀ (t : Token) (rest : List Token), t.kind = TokenKind.endTag →
      find_ty (t :: rest) = Ty.xmlOrHtml) ∧
    (∀ (t : Token) (rest : List Token),
      t.kind = TokenKind.comment ∨ t.kind = TokenKind.declaration ∨
        t.kind = TokenKind.processingInstruction →
      find_ty (t :: rest) = find_ty rest) ∧
    (∀ (t : Token) (rest : List Token), t.kind = TokenKind.characters →
      (t.text.toList.all isAsciiWhitespace = true →
        find_ty (t :: rest) = find_ty rest) ∧
      (t.text.toList.all isAsciiWhitespace = false →
        find_ty (t :: rest) = Ty.xmlOrHtml)) ∧
    (∀ (t : Token) (rest : List Token), t.kind = TokenKind.cdata →
      (t.content.toList.all isAsciiWhitespace = true →
        find_ty (t :: rest) = find_ty rest) ∧
      (t.content.toList.all isAsciiWhitespace = false →
        find_ty (t :: rest) = Ty.xmlOrHtml)) ∧
    (∀ t : Token,
      (eqIgnoreAsciiCase t.localName "rss" = true →
        map_tag_name_to_ty t = Ty.rss) ∧
      (eqIgnoreAsciiCase t.localName "rss" = false →
        eqIgnoreAsciiCase t.localName "feed" = true →
        map_tag_name_to_ty t = Ty.atom) ∧
      (eqIgnoreAsciiCase t.localName "rss" = false →
        eqIgnoreAsciiCase t.localName "feed" = false →
        map_tag_name_to_ty t = Ty.xmlOrHtml)) ∧
    (detect_type "{}" [braceTok] = Ty.json ∧
     detect_type "<rss></rss>" [rssStartTok, rssEndTok] = Ty.rss ∧
     detect_type "<feed/>" [feedEmptyTok] = Ty.atom ∧
     detect_type "" [] = Ty.unknown ∧
     detect_type "<div>x</div>" [divStartTok, xCharsTok, divEndTok] =
       Ty.xmlOrHtml) := by
  refine ⟨?_, ?_, rfl, ?_, ?_, ?_, ?_, ?_, ?_, ?_⟩
  · intro input ts c hfind
    have hred : detect_type input ts =
        (if c = '{' ∨ c = '[' then Ty.json
         else if c = '<' then find_ty ts else Ty.unknown) := by
      unfold detect_type
      rw [hfind]
    rw [hred]
    refine ⟨fun hc => ?_, fun hc => ?_, fun hc1 hc2 hc3 => ?_⟩
    · rw [if_pos hc]
    · rw [if_neg (by rintro (h | h) <;> simp [hc] at h), if_pos hc]
    · rw [if_neg (by rintro (h | h) <;> [exact hc1 h; exact hc2 h]),
        if_neg hc3]
  · intro input ts hfind
    unfold detect_type
    rw [hfind]
  · intro t rest hk
    rcases hk with hk | hk <;> (rw [find_ty, hk])
  · intro t rest hk
    rw [find_ty, hk]
  · intro t rest hk
    rcases hk with hk | hk | hk <;> rw [find_ty, hk]
  · intro t rest hk
    exact ⟨fun hw => by simp only [find_ty, hk]; rw [if_pos hw],
           fun hw => by simp only [find_ty, hk]; rw [if_neg (by rw [hw]; decide)]⟩
  · intro t rest hk
    exact ⟨fun hw => by simp only [find_ty, hk]; rw [if_pos hw],
           fun hw => by simp only [find_ty, hk]; rw [if_neg (by rw [hw]; decide)]⟩
  · intro t
    refine ⟨fun h1 => ?_, fun h1 h2 => ?_, fun h1 h2 => ?_⟩
    · rw [map_tag_name_to_ty, if_pos h1]
    · rw [map_tag_name_to_ty, if_neg (by rw [h1]; decide), if_pos h2]
    · rw [map_tag_name_to_ty, if_neg (by rw [h1]; decide),
        if_neg (by rw [h2]; decide)]
  · exact ⟨by decide, by decide, by decide, by decide, by decide⟩

/-- Witness for C5 at `<rss></rss>`: the first non-whitespace character is
`<`, so `detect_type` defers to the token scan. -/
theorem c5_detect_type_witness :
    ("<rss></rss>".toList.find? (fun c => !isRustWhitespace c) = some '<') ∧
    (((('<' : Char) = '{' ∨ ('<' : Char) = '[') →
        detect_type "<rss></rss>" [rssStartTok, rssEndTok] = Ty.json) ∧
     (('<' : Char) = '<' →
        detect_type "<rss></rss>" [rssStartTok, rssEndTok] =
          find_ty [rssStartTok, rssEndTok]) ∧
     (('<' : Char) ≠ '{' → ('<' : Char) ≠ '[' → ('<' : Char) ≠ '<' →
        detect_type "<rss></rss>" [rssStartTok, rssEndTok] = Ty.unknown)) :=
  ⟨by decide,
   c5_detect_type.1 "<rss></rss>" [rssStartTok, rssEndTok] '<' (by decide)⟩

/-- A `<TITLE>` start tag (canonical vocabulary word in capitals). -/
def titleCapsTok : Token :=
  { kind := .startTag, localName := "TITLE", text := "<TITLE>" }

/-- C6: every dispatcher resolves a tag by scanning its level's fixed
vocabulary table for the first ASCII-case-insensitive match of the local
name, and with no match returns `Unknown` carrying the tag and its raw
content slice unchanged; shown for the cited `FeedElem::new` and
`OutlineElem::new`, with a capitalised `<TITLE>` resolving like `title`. -/
theorem c6_dispatch_vocab :
    (∀ (t : Token) (w : List Token),
      atom.FeedElem.new t w =
        lookupVocab t w atom.feedVocab
          (fun tag win => .unknown ⟨tag, win⟩)) ∧
    (∀ (t : Token) (w : List Token),
      opml.OutlineElem.new t w =
        lookupVocab t w opml.outlineVocab
          (fun tag win => .unknown ⟨tag, win⟩)) ∧
    (∀ (t : Token) (w : List Token),
      (∀ name ∈ atom.feedVocab.map Prod.fst,
        eqIgnoreAsciiCase t.localName name = false) →
      atom.FeedElem.new t w = .unknown ⟨t, w⟩) ∧
    (∀ (t : Token) (w : List Token),
      (∀ name ∈ opml.outlineVocab.map Prod.fst,
        eqIgnoreAsciiCase t.localName name = false) →
      opml.OutlineElem.new t w = .unknown ⟨t, w⟩) ∧
    (∀ w : List Token,
      atom.FeedElem.new titleCapsTok w = .title ⟨titleCapsTok, w⟩) := by
  have hfeed : ∀ (t : Token) (w : List Token),
      atom.FeedElem.new t w =
        lookupVocab t w atom.feedVocab
          (fun tag win => .unknown ⟨tag, win⟩) := fun t w => rfl
  have houtline : ∀ (t : Token) (w : List Token),
      opml.OutlineElem.new t w =
        lookupVocab t w opml.outlineVocab
          (fun tag win => .unknown ⟨tag, win⟩) := fun t w => rfl
  refine ⟨hfeed, houtline, ?_, ?_, fun w => rfl⟩
  · intro t w h
    rw [hfeed t w]
    exact lookupVocab_none t w atom.feedVocab _
      (fun e he => h e.1 (List.mem_map_of_mem Prod.fst he))
  · intro t w h
    rw [houtline t w]
    exact lookupVocab_none t w opml.outlineVocab _
      (fun e he => h e.1 (List.mem_map_of_mem Prod.fst he))

/-- A `<custom>` start tag, outside every vocabulary. -/
def customTok : Token :=
  { kind := .startTag, localName := "custom", text := "<custom>" }

/-- Witness for C6: a tag named `custom` matches no feed-level vocabulary
entry, so it dispatches to `Unknown` with its tag and window intact. -/
theorem c6_dispatch_vocab_witness :
    atom.FeedElem.new customTok [abcTok] =
      .unknown ⟨customTok, [abcTok]⟩ :=
  c6_dispatch_vocab.2.2.1 customTok [abcTok] (by decide)

/-- The tag `<Link HREF="x">` with mixed-case name and attribute. -/
def linkCapsTok : Token :=
  { kind := .startTag, localName := "Link",
    attrs := [{ name := "HREF", value := some "x" }],
    text := "<Link HREF=\"x\">" }

/-- C9: attribute lookup is a linear scan of the tag's attribute list
comparing names ASCII-case-insensitively; the first match's value is
returned, and the result is `none` when no attribute of that name exists
or the tag has no attributes; `<Link HREF="x">` answers an `href` query
with `x`. -/
theorem c9_find_attribute :
    (∀ (attrs : List Attr) (needle : String),
      find_attribute attrs needle =
        (match attrs.find? (fun a => eqIgnoreAsciiCase a.name needle) with
        | some a => a.value
        | none => none)) ∧
    (∀ (attrs : List Attr) (needle : String),
      (∀ a ∈ attrs, eqIgnoreAsciiCase a.name needle = false) →
      find_attribute attrs needle = none) ∧
    (∀ needle : String, find_attribute [] needle = none) ∧
    (Token.find_attribute linkCapsTok "href" = some "x") := by
  have hscan : ∀ (attrs : List Attr) (needle : String),
      find_attribute attrs needle =
        (match attrs.find? (fun a => eqIgnoreAsciiCase a.name needle) with
        | some a => a.value
        | none => none) := by
    intro attrs needle
    induction attrs with
    | nil => rfl
    | cons a rest ih =>
      rw [find_attribute]
      by_cases h : eqIgnoreAsciiCase a.name needle
      · rw [if_pos h]
        simp only [List.find?, h]
      · rw [if_neg h, ih]
        have hb : eqIgnoreAsciiCase a.name needle = false := by
          simpa using h
        simp only [List.find?, hb]
  refine ⟨hscan, ?_, fun needle => rfl, by decide⟩
  intro attrs needle h
  rw [hscan]
  rw [List.find?_eq_none.mpr (fun a ha => by simp [h a ha])]

/-- Witness for C9: no attribute named `b` among `[a]`, so the lookup
answers `none`. -/
theorem c9_find_attribute_witness :
    find_attribute [{ name := "a", value := some "v" }] "b" = none :=
  c9_find_attribute.2.1 [{ name := "a", value := some "v" }] "b" (by decide)

/-- C10: the scan stops at the first name match and returns that
attribute's value even when it is absent: with a valueless attribute
occurring before a same-named attribute that has a value, the result is
`none`. -/
theorem c10_first_match_shadows :
    ∀ (pre post : List Attr) (needle : String) (a : Attr),
      eqIgnoreAsciiCase a.name needle = true → a.value = none →
      (∀ b ∈ pre, eqIgnoreAsciiCase b.name needle = false) →
      find_attribute (pre ++ a :: post) needle = none := by
  intro pre
  induction pre with
  | nil =>
    intro post needle a hname hval _
    rw [List.nil_append, find_attribute, if_pos hname]
    exact hval
  | cons b rest ih =>
    intro post needle a hname hval h
    rw [List.cons_append, find_attribute,
      if_neg (by rw [h b (List.mem_cons_self b rest)]; decide)]
    exact ih post needle a hname hval
      (fun x hx => h x (List.mem_cons_of_mem b hx))

/-- Witness for C10: `href` (no value) shadows a later `HREF="x"`. -/
theorem c10_first_match_shadows_witness :
    find_attribute
      ([] ++ { name := "href", value := none } ::
        [{ name := "HREF", value := some "x" }]) "href" = none :=
  c10_first_match_shadows [] [{ name := "HREF", value := some "x" }]
    "href" { name := "href", value := none } (by decide) rfl (by decide)

end Readfeed
